import Mathlib

/-!
Verification of the `slogjson` JSON log sink (package
`go.coder.com/slog/sloggers/slogjson`, file `slogjson.go`) against its
natural-language specification.

The sink renders one structured log entry as a single-line JSON object and
writes it, newline-terminated, to an underlying synchronized writer.  The
embedding below models:

* JSON values (`JVal`) with an `unsupported` constructor standing for Go
  values that `encoding/json` cannot marshal (functions, channels, cyclic
  structures), so that serialization can fail exactly as in Go;
* the opencensus `trace.SpanContext` with its zero-value sentinel and the
  `slog.Entry` record consumed by the sink;
* the ordered key/value record built by `jsonSink.LogEntry`
  (`slogjson.go` lines 52-72), the marshal step, the newline append and
  the single write call (lines 74-85), with `xerrors.Errorf("...: %w", err)`
  modelled as an explicit error-wrapping constructor;
* the synchronized writer (`internal/syncwriter`, whose source is not part
  of this fragment) from the spec: a lock-protected single write call and a
  pass-through sync, plus a small-step interleaving semantics used to prove
  the non-interleaving guarantee.
-/

/-- JSON values.  Objects are ordered lists of pairs, preserving insertion
order, exactly as the ordered map `slog.Map` does.  `unsupported` stands for
a Go value `encoding/json` rejects (func, chan, cyclic data); marshalling it
fails with Go's error message. -/
inductive JVal where
  | str : String → JVal
  | num : Int → JVal
  | bool : Bool → JVal
  | null : JVal
  | arr : List JVal → JVal
  | obj : List (String × JVal) → JVal
  | unsupported : String → JVal

/-- Go errors: either a base error message or a wrapping error as produced by
`xerrors.Errorf("<msg>: %w", cause)`, keeping the wrapped cause reachable. -/
inductive GoError where
  | base : String → GoError
  | wrap : String → GoError → GoError
deriving DecidableEq

/-- Hexadecimal digit character for a value below 16 (lowercase, as Go's
`%02x` / the opencensus ID `String()` methods produce). -/
def hexDigit (n : Nat) : Char :=
  if n < 10 then Char.ofNat (48 + n) else Char.ofNat (87 + n)

/-- Two lowercase hex digits of one byte. -/
def byteHex (b : Nat) : String :=
  String.mk [hexDigit (b / 16 % 16), hexDigit (b % 16)]

/-- Lowercase hex rendering of a byte sequence: the string representation of
the opencensus trace and span IDs. -/
def bytesHex (bs : List Nat) : String :=
  String.join (bs.map byteHex)

/-- Escaping of one character inside a JSON string, following Go's
`encoding/json` encoder (with its default HTML escaping). -/
def escapeChar (c : Char) : String :=
  if c = '"' then "\\\""
  else if c = '\\' then "\\\\"
  else if c = '\n' then "\\n"
  else if c = '\r' then "\\r"
  else if c = '\t' then "\\t"
  else if c.toNat < 32 then "\\u00" ++ byteHex c.toNat
  else if c = '<' then "\\u003c"
  else if c = '>' then "\\u003e"
  else if c = '&' then "\\u0026"
  else String.singleton c

/-- JSON string literal for `s`: quotes around the escaped characters. -/
def jsonQuote (s : String) : String :=
  "\"" ++ String.join (s.data.map escapeChar) ++ "\""

/-- Comma-separated concatenation. -/
def joinComma : List String → String
  | [] => ""
  | [s] => s
  | s :: rest => s ++ "," ++ joinComma rest

mutual

/-- Model of `json.Marshal` on already-structured values: objects render
their pairs in list order; an `unsupported` value anywhere fails with Go's
`json: unsupported type` error. -/
def JVal.marshal : JVal → Except GoError String
  | .str s => .ok (jsonQuote s)
  | .num n => .ok (toString n)
  | .bool b => .ok (if b then "true" else "false")
  | .null => .ok "null"
  | .arr xs => do
      let parts ← marshalElems xs
      pure ("[" ++ joinComma parts ++ "]")
  | .obj ps => do
      let parts ← marshalPairs ps
      pure ("\x7b" ++ joinComma parts ++ "\x7d")
  | .unsupported tag => .error (GoError.base ("json: unsupported type: " ++ tag))

/-- Marshal every element of a JSON array, failing on the first error. -/
def marshalElems : List JVal → Except GoError (List String)
  | [] => .ok []
  | v :: vs => do
      let s ← JVal.marshal v
      let rest ← marshalElems vs
      pure (s :: rest)

/-- Marshal every pair of a JSON object in order, failing on the first
error; each pair renders as `"key":value`. -/
def marshalPairs : List (String × JVal) → Except GoError (List String)
  | [] => .ok []
  | (k, v) :: ps => do
      let s ← JVal.marshal v
      let rest ← marshalPairs ps
      pure ((jsonQuote k ++ ":" ++ s) :: rest)

end

/-- The opencensus `trace.SpanContext` as the sink sees it: a 16-byte trace
ID, an 8-byte span ID and the options word.  Byte sequences are lists of
byte values. -/
structure SpanContext where
  TraceID : List Nat
  SpanID : List Nat
  TraceOptions : Nat
deriving DecidableEq

/-- The zero value `trace.SpanContext\x7b\x7d` that line 61 of the source
compares against: all-zero identifiers and options. -/
def SpanContext.empty : SpanContext :=
  ⟨List.replicate 16 0, List.replicate 8 0, 0⟩

/-- The `slog.Entry` fields consumed by `jsonSink.LogEntry`.  `Time` holds
the RFC3339 rendering of the timestamp and `Level` the uppercase level name,
both produced upstream of this sink; `Fields` is the ordered field
collection with values already in encoded (JSON) form, possibly
`unsupported`. -/
structure Entry where
  Time : String
  Level : String
  LoggerName : String
  Message : String
  File : String
  Line : Int
  Func : String
  SpanContext : SpanContext
  Fields : List (String × JVal)

/-- The pair constructor `slog.F(name, value)` of the surrounding library. -/
def slog.F (k : String) (v : JVal) : String × JVal := (k, v)

/-- The ordered map constructor `slog.Map(fields...)` of the surrounding
library: it keeps the pairs in the given order. -/
def slog.Map (fs : List (String × JVal)) : List (String × JVal) := fs

/-- Modelled from the spec: `slog.Encode` (surrounding library, source not in
this fragment) turns the ordered (key, value) map into a JSON object value
preserving order; trace and span IDs were already rendered as their string
representations and field values arrive in encoded form. -/
def slog.Encode (m : List (String × JVal)) : JVal := JVal.obj m

/-- The ordered record built by `jsonSink.LogEntry` (slogjson.go lines
52-72): the six mandatory keys in fixed order, then `trace`/`span` when the
span context differs from the zero value, then `fields` when the field
collection is non-empty. -/
def entryMap (ent : Entry) : List (String × JVal) :=
  let m := slog.Map
    [ slog.F "ts" (JVal.str ent.Time),
      slog.F "level" (JVal.str ent.Level),
      slog.F "component" (JVal.str ent.LoggerName),
      slog.F "msg" (JVal.str ent.Message),
      slog.F "caller" (JVal.str (ent.File ++ ":" ++ toString ent.Line)),
      slog.F "func" (JVal.str ent.Func) ]
  let m := if ent.SpanContext ≠ SpanContext.empty then
      m ++ [ slog.F "trace" (JVal.str (bytesHex ent.SpanContext.TraceID)),
             slog.F "span" (JVal.str (bytesHex ent.SpanContext.SpanID)) ]
    else m
  let m := if ent.Fields.length > 0 then
      m ++ [ slog.F "fields" (JVal.obj ent.Fields) ]
    else m
  m

/-- First value bound to a key in an ordered (key, value) record. -/
def lookupKey (m : List (String × JVal)) (k : String) : Option JVal :=
  match m with
  | [] => none
  | (k2, v) :: rest => if k2 = k then some v else lookupKey rest k

namespace syncwriter

/-- Modelled from the spec: the behaviour of `internal/syncwriter.Writer`
(source not in this fragment) as the sink observes it in one call.
`writeRes` gives the result of the single underlying write call for a
payload (`none` is success); `syncRes` is `none` when the wrapped stream has
no sync capability (sync is then a successful no-op) and otherwise holds the
result that invoking the capability returns. -/
structure Writer where
  writeRes : String → Option GoError
  syncRes : Option (Option GoError)

/-- Modelled from the spec: `Write` performs one write call with the full
byte sequence under the lock and returns the underlying writer's error
unmodified. -/
def Writer.Write (w : Writer) (buf : String) : Option GoError :=
  w.writeRes buf

/-- Modelled from the spec: `Sync` invokes the stream's sync capability when
present and returns its error; with no capability it is a successful
no-op. -/
def Writer.Sync (w : Writer) : Option GoError :=
  match w.syncRes with
  | none => none
  | some r => r

end syncwriter

/-- The sink value (slogjson.go lines 46-49): the synchronized writer and
the TTY display-mode flag. -/
structure jsonSink where
  w : syncwriter.Writer
  color : Bool

/-- The body of `jsonSink.LogEntry` (slogjson.go lines 51-86).  Returns the
Go result (`.ok` or the wrapped error) together with the list of payloads
passed to the synchronized writer's write, in order, so that theorems can
speak about which bytes were handed to the stream.  On a marshal error the
function returns the `slogjson: failed to encode entry to JSON` wrap of the
cause without writing; otherwise it appends one newline byte and issues one
write call, wrapping a write error as `slogjson: failed to write JSON
entry`. -/
def jsonSink.LogEntry (s : jsonSink) (ent : Entry) :
    Except GoError Unit × List String :=
  match JVal.marshal (slog.Encode (entryMap ent)) with
  | .error err =>
      (.error (GoError.wrap "slogjson: failed to encode entry to JSON" err), [])
  | .ok buf =>
      let buf := buf ++ "\n"
      match s.w.Write buf with
      | some err =>
          (.error (GoError.wrap "slogjson: failed to write JSON entry" err), [buf])
      | none => (.ok (), [buf])

/-- The body of `jsonSink.Sync` (slogjson.go lines 88-90): it returns the
synchronized writer's sync result directly. -/
def jsonSink.Sync (s : jsonSink) : Option GoError :=
  s.w.Sync

/-- Concrete writer whose single write call succeeds and whose stream has no
sync capability. -/
def writerOK : syncwriter.Writer := ⟨fun _ => none, none⟩

/-- Concrete writer whose single write call fails with a closed-pipe
error. -/
def writerFail : syncwriter.Writer :=
  ⟨fun _ => some (GoError.base "io: write on closed pipe"), none⟩

/-- Concrete sink over the succeeding writer. -/
def sinkOK : jsonSink := ⟨writerOK, false⟩

/-- Concrete sink over the failing writer. -/
def sinkFail : jsonSink := ⟨writerFail, false⟩

/-- The spec's example entry: INFO at comp.subcomp, one string field, no
tracing identifiers. -/
def entGood : Entry :=
  { Time := "2019-09-10T20:19:07.159852-05:00"
    Level := "INFO"
    LoggerName := "comp.subcomp"
    Message := "hi"
    File := "slog/examples_test.go"
    Line := 62
    Func := "pkg.TestExampleTest"
    SpanContext := SpanContext.empty
    Fields := [("myField", JVal.str "fieldValue")] }

/-- The example entry with a field value `encoding/json` cannot marshal. -/
def entBad : Entry :=
  { entGood with Fields := [("cb", JVal.unsupported "func()")] }

/-- The JSON line the example entry serializes to (before the newline). -/
def jsonGood : String :=
  "\x7b\"ts\":\"2019-09-10T20:19:07.159852-05:00\",\"level\":\"INFO\",\"component\":\"comp.subcomp\",\"msg\":\"hi\",\"caller\":\"slog/examples_test.go:62\",\"func\":\"pkg.TestExampleTest\",\"fields\":\x7b\"myField\":\"fieldValue\"\x7d\x7d"

/-- Progress of one logging thread through the synchronized writer: not yet
holding the lock, holding the lock and emitting its bytes, or done. -/
inductive Phase where
  | idle
  | writing
  | finished
deriving DecidableEq

/-- One concurrent caller: its full write payload, how many bytes of it have
reached the stream, and its phase. -/
structure ThreadSt where
  payload : List Char
  pos : Nat
  phase : Phase

/-- Global state of the synchronized writer under concurrent callers: the
lock holder (if any), the bytes that reached the underlying stream so far,
and the callers. -/
structure Config where
  lock : Option Nat
  out : List Char
  threads : List ThreadSt

/-- Initial state for one payload per caller: lock free, empty stream. -/
def initConfig (ps : List (List Char)) : Config :=
  ⟨none, [], ps.map (fun p => ⟨p, 0, Phase.idle⟩)⟩

/-- Modelled from the spec: small-step semantics of `internal/syncwriter`
(source not in this fragment) under concurrent callers.  The underlying
stream receives bytes one at a time — the adversarial granularity — but a
caller may only emit while holding the exclusive lock, which it acquires
before its first byte and releases after its last, exactly the spec's
lock-around-one-write-call discipline. -/
inductive WStep : Config → Config → Prop where
  | acquire (c : Config) (i : Nat) (t : ThreadSt)
      (hl : c.lock = none) (ht : c.threads[i]? = some t)
      (hp : t.phase = Phase.idle) :
      WStep c ⟨some i, c.out, c.threads.set i ⟨t.payload, t.pos, Phase.writing⟩⟩
  | emit (c : Config) (i : Nat) (t : ThreadSt) (ch : Char)
      (hl : c.lock = some i) (ht : c.threads[i]? = some t)
      (hp : t.phase = Phase.writing) (hc : t.payload[t.pos]? = some ch) :
      WStep c ⟨some i, c.out ++ [ch], c.threads.set i ⟨t.payload, t.pos + 1, Phase.writing⟩⟩
  | release (c : Config) (i : Nat) (t : ThreadSt)
      (hl : c.lock = some i) (ht : c.threads[i]? = some t)
      (hp : t.phase = Phase.writing) (hd : t.pos = t.payload.length) :
      WStep c ⟨none, c.out, c.threads.set i ⟨t.payload, t.pos, Phase.finished⟩⟩

/-- The partial payload the current lock holder has emitted so far. -/
def pendingBytes (c : Config) : List Char :=
  match c.lock with
  | none => []
  | some i =>
    match c.threads[i]? with
    | none => []
    | some t => t.payload.take t.pos
/-- Invariant of the synchronized-writer semantics: payloads never change,
positions agree with phases, only the lock holder is mid-write, and the
stream contents are the finished payloads whole and in completion order
(`order`), followed by the lock holder's partial payload. -/
structure WInv (ps : List (List Char)) (c : Config) (order : List Nat) : Prop where
  len_eq : c.threads.length = ps.length
  payload_eq : ∀ (i : Nat) (t : ThreadSt), c.threads[i]? = some t →
    t.payload = ps.getD i []
  idle_pos : ∀ (i : Nat) (t : ThreadSt), c.threads[i]? = some t →
    t.phase = Phase.idle → t.pos = 0
  fin_pos : ∀ (i : Nat) (t : ThreadSt), c.threads[i]? = some t →
    t.phase = Phase.finished → t.pos = t.payload.length
  lock_writing : ∀ i : Nat, c.lock = some i →
    ∃ t : ThreadSt, c.threads[i]? = some t ∧ t.phase = Phase.writing
  writing_lock : ∀ (i : Nat) (t : ThreadSt), c.threads[i]? = some t →
    t.phase = Phase.writing → c.lock = some i
  order_nodup : order.Nodup
  order_mem : ∀ i : Nat, i ∈ order ↔
    ∃ t : ThreadSt, c.threads[i]? = some t ∧ t.phase = Phase.finished
  out_eq : c.out = (order.map (fun i => ps.getD i [])).flatten ++ pendingBytes c
/-- The write-call payloads that N logical log calls hand to the
synchronized writer: each entry contributes the payloads of its single
`LogEntry` call (none when marshalling fails, else its one newline-terminated
line), as byte (character) sequences. -/
def entryPayloads (s : jsonSink) (ents : List Entry) : List (List Char) :=
  ((ents.map (fun e => (s.LogEntry e).2)).flatten).map String.data
/-- The byte sequence the example entry's log call writes. -/
def payloadGood : List Char := (jsonGood ++ "\n").data

/-- The state after a single caller has logged the example entry. -/
def finalConfigGood : Config :=
  ⟨none, payloadGood, [⟨payloadGood, payloadGood.length, Phase.finished⟩]⟩
/-- The write-call payload list of `jsonSink.LogEntry`, characterised: empty
on a marshal error, otherwise exactly one payload, the JSON bytes followed
by one newline. -/
theorem logEntry_writes (s : jsonSink) (ent : Entry) :
    (s.LogEntry ent).2 =
      (match JVal.marshal (slog.Encode (entryMap ent)) with
       | .error _ => []
       | .ok buf => [buf ++ "\n"]) := by
  unfold jsonSink.LogEntry
  cases h : JVal.marshal (slog.Encode (entryMap ent)) with
  | error e => simp
  | ok buf => cases hw : s.w.Write (buf ++ "\n") <;> simp [hw]
/-- Case analysis of a lookup into a list with one position overwritten. -/
theorem set_lookup {l : List ThreadSt} {i j : Nat} {a t : ThreadSt}
    (h : (l.set i a)[j]? = some t) :
    (j = i ∧ i < l.length ∧ t = a) ∨ (j ≠ i ∧ l[j]? = some t) := by
  rw [List.getElem?_set] at h
  by_cases hj : i = j
  · rw [if_pos hj] at h
    by_cases hi : i < l.length
    · rw [if_pos hi] at h
      injection h with h
      exact Or.inl ⟨hj.symm, hi, h.symm⟩
    · rw [if_neg hi] at h
      cases h
  · rw [if_neg hj] at h
    exact Or.inr ⟨fun hji => hj hji.symm, h⟩
/-- Writing back the element already at a position leaves a list unchanged. -/
theorem set_of_lookup {α : Type} {l : List α} {i : Nat} {a : α}
    (h : l[i]? = some a) : l.set i a = l := by
  obtain ⟨hi, hgl⟩ := List.getElem?_eq_some.mp h
  apply List.ext_getElem?
  intro j
  rw [List.getElem?_set]
  by_cases hj : i = j
  · subst hj
    rw [if_pos rfl, if_pos hi, ← hgl]
    exact (List.getElem?_eq_some.mpr ⟨hi, rfl⟩).symm
  · rw [if_neg hj]
/-- The invariant holds initially, with no finished callers. -/
theorem winv_init (ps : List (List Char)) : WInv ps (initConfig ps) [] := by
  constructor
  case len_eq => simp [initConfig]
  case payload_eq =>
    intro i t ht
    simp only [initConfig, List.getElem?_map] at ht
    cases hpi : ps[i]? with
    | none => rw [hpi] at ht; simp at ht
    | some p =>
      rw [hpi] at ht
      simp at ht
      rw [← ht]
      simp [List.getD_eq_getElem?_getD, hpi]
  case idle_pos =>
    intro i t ht _
    simp only [initConfig, List.getElem?_map] at ht
    cases hpi : ps[i]? with
    | none => rw [hpi] at ht; simp at ht
    | some p => rw [hpi] at ht; simp at ht; rw [← ht]
  case fin_pos =>
    intro i t ht hph
    simp only [initConfig, List.getElem?_map] at ht
    cases hpi : ps[i]? with
    | none => rw [hpi] at ht; simp at ht
    | some p =>
      rw [hpi] at ht; simp at ht
      rw [← ht] at hph
      simp at hph
  case lock_writing =>
    intro i hli
    simp [initConfig] at hli
  case writing_lock =>
    intro i t ht hph
    simp only [initConfig, List.getElem?_map] at ht
    cases hpi : ps[i]? with
    | none => rw [hpi] at ht; simp at ht
    | some p =>
      rw [hpi] at ht; simp at ht
      rw [← ht] at hph
      simp at hph
  case order_nodup => exact List.nodup_nil
  case order_mem =>
    intro i
    simp only [List.not_mem_nil, false_iff]
    rintro ⟨t, ht, hph⟩
    simp only [initConfig, List.getElem?_map] at ht
    cases hpi : ps[i]? with
    | none => rw [hpi] at ht; simp at ht
    | some p =>
      rw [hpi] at ht; simp at ht
      rw [← ht] at hph
      simp at hph
  case out_eq => simp [initConfig, pendingBytes]
/-- Every step of the synchronized writer preserves the invariant. -/
theorem winv_step {ps : List (List Char)} {c c2 : Config} {order : List Nat}
    (hstep : WStep c c2) (hinv : WInv ps c order) :
    ∃ order2 : List Nat, WInv ps c2 order2 := by
  cases hstep with
  | acquire i t hl ht hp =>
    have hi : i < c.threads.length := (List.getElem?_eq_some.mp ht).1
    have hpos0 : t.pos = 0 := hinv.idle_pos i t ht hp
    refine ⟨order, ?_⟩
    constructor
    case len_eq => simpa using hinv.len_eq
    case payload_eq =>
      intro j u hu
      rcases set_lookup hu with ⟨hj, _, hu2⟩ | ⟨hj, hu2⟩
      · subst hj; subst hu2; exact hinv.payload_eq j t ht
      · exact hinv.payload_eq j u hu2
    case idle_pos =>
      intro j u hu hph
      rcases set_lookup hu with ⟨hj, _, hu2⟩ | ⟨hj, hu2⟩
      · subst hu2; cases hph
      · exact hinv.idle_pos j u hu2 hph
    case fin_pos =>
      intro j u hu hph
      rcases set_lookup hu with ⟨hj, _, hu2⟩ | ⟨hj, hu2⟩
      · subst hu2; cases hph
      · exact hinv.fin_pos j u hu2 hph
    case lock_writing =>
      intro j hlj
      injection hlj with hlj
      subst hlj
      exact ⟨⟨t.payload, t.pos, Phase.writing⟩, List.getElem?_set_self hi, rfl⟩
    case writing_lock =>
      intro j u hu hph
      rcases set_lookup hu with ⟨hj, _, hu2⟩ | ⟨hj, hu2⟩
      · subst hj; rfl
      · have := hinv.writing_lock j u hu2 hph
        rw [hl] at this
        cases this
    case order_nodup => exact hinv.order_nodup
    case order_mem =>
      intro j
      rw [hinv.order_mem j]
      constructor
      · rintro ⟨u, hu, hph⟩
        by_cases hj : j = i
        · subst hj
          rw [ht] at hu
          injection hu with hu
          subst hu
          rw [hp] at hph
          cases hph
        · exact ⟨u, by rw [List.getElem?_set_ne (Ne.symm hj)]; exact hu, hph⟩
      · rintro ⟨u, hu, hph⟩
        rcases set_lookup hu with ⟨hj, _, hu2⟩ | ⟨hj, hu2⟩
        · subst hu2; cases hph
        · exact ⟨u, hu2, hph⟩
    case out_eq =>
      have hpend : pendingBytes ⟨some i, c.out,
          c.threads.set i ⟨t.payload, t.pos, Phase.writing⟩⟩ = [] := by
        simp [pendingBytes, List.getElem?_set_self hi, hpos0]
      rw [hpend]
      have hold := hinv.out_eq
      simp only [pendingBytes, hl] at hold
      simpa using hold
  | emit i t ch hl ht hp hc =>
    have hi : i < c.threads.length := (List.getElem?_eq_some.mp ht).1
    refine ⟨order, ?_⟩
    constructor
    case len_eq => simpa using hinv.len_eq
    case payload_eq =>
      intro j u hu
      rcases set_lookup hu with ⟨hj, _, hu2⟩ | ⟨hj, hu2⟩
      · subst hj; subst hu2; exact hinv.payload_eq j t ht
      · exact hinv.payload_eq j u hu2
    case idle_pos =>
      intro j u hu hph
      rcases set_lookup hu with ⟨hj, _, hu2⟩ | ⟨hj, hu2⟩
      · subst hu2; cases hph
      · exact hinv.idle_pos j u hu2 hph
    case fin_pos =>
      intro j u hu hph
      rcases set_lookup hu with ⟨hj, _, hu2⟩ | ⟨hj, hu2⟩
      · subst hu2; cases hph
      · exact hinv.fin_pos j u hu2 hph
    case lock_writing =>
      intro j hlj
      injection hlj with hlj
      subst hlj
      exact ⟨⟨t.payload, t.pos + 1, Phase.writing⟩, List.getElem?_set_self hi, rfl⟩
    case writing_lock =>
      intro j u hu hph
      rcases set_lookup hu with ⟨hj, _, hu2⟩ | ⟨hj, hu2⟩
      · subst hj; rfl
      · have := hinv.writing_lock j u hu2 hph
        rw [hl] at this
        injection this with this
        exact absurd this.symm hj
    case order_nodup => exact hinv.order_nodup
    case order_mem =>
      intro j
      rw [hinv.order_mem j]
      constructor
      · rintro ⟨u, hu, hph⟩
        by_cases hj : j = i
        · subst hj
          rw [ht] at hu
          injection hu with hu
          subst hu
          rw [hp] at hph
          cases hph
        · exact ⟨u, by rw [List.getElem?_set_ne (Ne.symm hj)]; exact hu, hph⟩
      · rintro ⟨u, hu, hph⟩
        rcases set_lookup hu with ⟨hj, _, hu2⟩ | ⟨hj, hu2⟩
        · subst hu2; cases hph
        · exact ⟨u, hu2, hph⟩
    case out_eq =>
      have hpend : pendingBytes ⟨some i, c.out ++ [ch],
          c.threads.set i ⟨t.payload, t.pos + 1, Phase.writing⟩⟩ =
            t.payload.take t.pos ++ [ch] := by
        simp only [pendingBytes, List.getElem?_set_self hi]
        rw [List.take_succ, hc]
        rfl
      rw [hpend]
      have hold := hinv.out_eq
      simp only [pendingBytes, hl, ht] at hold
      rw [hold]
      simp [List.append_assoc]
  | release i t hl ht hp hd =>
    have hi : i < c.threads.length := (List.getElem?_eq_some.mp ht).1
    have hnotmem : i ∉ order := by
      intro hmem
      obtain ⟨u, hu, hph⟩ := (hinv.order_mem i).mp hmem
      rw [ht] at hu
      injection hu with hu
      subst hu
      rw [hp] at hph
      cases hph
    refine ⟨order ++ [i], ?_⟩
    constructor
    case len_eq => simpa using hinv.len_eq
    case payload_eq =>
      intro j u hu
      rcases set_lookup hu with ⟨hj, _, hu2⟩ | ⟨hj, hu2⟩
      · subst hj; subst hu2; exact hinv.payload_eq j t ht
      · exact hinv.payload_eq j u hu2
    case idle_pos =>
      intro j u hu hph
      rcases set_lookup hu with ⟨hj, _, hu2⟩ | ⟨hj, hu2⟩
      · subst hu2; cases hph
      · exact hinv.idle_pos j u hu2 hph
    case fin_pos =>
      intro j u hu hph
      rcases set_lookup hu with ⟨hj, _, hu2⟩ | ⟨hj, hu2⟩
      · subst hu2; exact hd
      · exact hinv.fin_pos j u hu2 hph
    case lock_writing =>
      intro j hlj
      cases hlj
    case writing_lock =>
      intro j u hu hph
      rcases set_lookup hu with ⟨hj, _, hu2⟩ | ⟨hj, hu2⟩
      · subst hu2; cases hph
      · have := hinv.writing_lock j u hu2 hph
        rw [hl] at this
        injection this with this
        exact absurd this.symm hj
    case order_nodup =>
      rw [List.nodup_append]
      refine ⟨hinv.order_nodup, List.nodup_singleton i, ?_⟩
      intro a ha hb
      rw [List.mem_singleton] at hb
      subst hb
      exact hnotmem ha
    case order_mem =>
      intro j
      rw [List.mem_append, List.mem_singleton, hinv.order_mem j]
      constructor
      · rintro (⟨u, hu, hph⟩ | hj)
        · by_cases hj : j = i
          · subst hj
            rw [ht] at hu
            injection hu with hu
            subst hu
            rw [hp] at hph
            cases hph
          · exact ⟨u, by rw [List.getElem?_set_ne (Ne.symm hj)]; exact hu, hph⟩
        · subst hj
          exact ⟨⟨t.payload, t.pos, Phase.finished⟩, List.getElem?_set_self hi, rfl⟩
      · rintro ⟨u, hu, hph⟩
        rcases set_lookup hu with ⟨hj, _, hu2⟩ | ⟨hj, hu2⟩
        · exact Or.inr hj
        · exact Or.inl ⟨u, hu2, hph⟩
    case out_eq =>
      have hpend : pendingBytes ⟨none, c.out,
          c.threads.set i ⟨t.payload, t.pos, Phase.finished⟩⟩ = [] := by
        simp [pendingBytes]
      rw [hpend]
      have hold := hinv.out_eq
      simp only [pendingBytes, hl, ht] at hold
      rw [hd, List.take_length] at hold
      rw [hold, hinv.payload_eq i t ht]
      simp
/-- Every state reachable from the initial one satisfies the invariant. -/
theorem winv_reach {ps : List (List Char)} {c : Config}
    (h : Relation.ReflTransGen WStep (initConfig ps) c) :
    ∃ order : List Nat, WInv ps c order := by
  induction h with
  | refl => exact ⟨[], winv_init ps⟩
  | tail _ hstep ih =>
    obtain ⟨o, ho⟩ := ih
    exact winv_step hstep ho
/-- When every caller has finished, the stream holds exactly the payloads,
each whole and contiguous, concatenated in some order. -/
theorem final_out {ps : List (List Char)} {c : Config}
    (h : Relation.ReflTransGen WStep (initConfig ps) c)
    (hfin : ∀ t ∈ c.threads, t.phase = Phase.finished) :
    ∃ order : List Nat, order.Perm (List.range ps.length) ∧
      c.out = (order.map (fun i => ps.getD i [])).flatten := by
  obtain ⟨order, hinv⟩ := winv_reach h
  have hlock : c.lock = none := by
    cases hlk : c.lock with
    | none => rfl
    | some i =>
      obtain ⟨u, hu, hph⟩ := hinv.lock_writing i hlk
      have := hfin u (List.getElem?_mem hu)
      rw [this] at hph
      cases hph
  refine ⟨order, ?_, ?_⟩
  · rw [List.perm_ext_iff_of_nodup hinv.order_nodup (List.nodup_range _)]
    intro j
    rw [hinv.order_mem j, List.mem_range, ← hinv.len_eq]
    constructor
    · rintro ⟨u, hu, _⟩
      exact (List.getElem?_eq_some.mp hu).1
    · intro hj
      exact ⟨c.threads[j],
        List.getElem?_eq_some.mpr ⟨hj, rfl⟩,
        hfin _ (List.getElem_mem hj)⟩
  · have hout := hinv.out_eq
    have hpend : pendingBytes c = [] := by
      simp [pendingBytes, hlock]
    rwa [hpend, List.append_nil] at hout
/-- Every payload a log call hands to the writer is non-empty and ends with
the single newline byte. -/
theorem payload_newline {s : jsonSink} {ents : List Entry} {p : List Char}
    (hp : p ∈ entryPayloads s ents) : p ≠ [] ∧ p.getLast? = some '\n' := by
  unfold entryPayloads at hp
  rw [List.mem_map] at hp
  obtain ⟨q, hq, hqd⟩ := hp
  rw [List.mem_flatten] at hq
  obtain ⟨l, hl, hql⟩ := hq
  rw [List.mem_map] at hl
  obtain ⟨e, _, hle⟩ := hl
  subst hle
  rw [logEntry_writes] at hql
  cases hm : JVal.marshal (slog.Encode (entryMap e)) with
  | error err => rw [hm] at hql; cases hql
  | ok buf =>
    rw [hm] at hql
    rw [List.mem_singleton] at hql
    subst hql
    subst hqd
    constructor
    · simp
    · show ((buf ++ "\n").data).getLast? = some '\n'
      rw [String.data_append]
      rw [List.getLast?_append]
      rfl
/-- A lock holder can emit the rest of its payload, byte by byte. -/
theorem emit_run (i : Nat) (p : List Char) :
    ∀ (k : Nat) (c : Config), k ≤ p.length →
    c.lock = some i → c.threads[i]? = some ⟨p, p.length - k, Phase.writing⟩ →
    Relation.ReflTransGen WStep c
      ⟨some i, c.out ++ p.drop (p.length - k),
       c.threads.set i ⟨p, p.length, Phase.writing⟩⟩ := by
  intro k
  induction k with
  | zero =>
    intro c _ hl ht
    have hdrop : p.drop (p.length - 0) = [] := by simp
    rw [hdrop, List.append_nil]
    have hset : c.threads.set i ⟨p, p.length, Phase.writing⟩ = c.threads := by
      have : p.length - 0 = p.length := by simp
      rw [this] at ht
      exact set_of_lookup ht
    rw [hset]
    have : c = ⟨some i, c.out, c.threads⟩ := by
      cases c with
      | mk lk o th => simp_all
    rw [← this]
  | succ k ih =>
    intro c hk hl ht
    have hpos : p.length - (k + 1) < p.length := by omega
    have hch : p[p.length - (k + 1)]? = some p[p.length - (k + 1)] :=
      List.getElem?_eq_some.mpr ⟨hpos, rfl⟩
    have hstep := WStep.emit c i ⟨p, p.length - (k + 1), Phase.writing⟩
      p[p.length - (k + 1)] hl ht rfl hch
    refine Relation.ReflTransGen.head hstep ?_
    have harith : p.length - (k + 1) + 1 = p.length - k := by omega
    have hi : i < c.threads.length := (List.getElem?_eq_some.mp ht).1
    have hset2 : (c.threads.set i ⟨p, p.length - (k + 1) + 1, Phase.writing⟩)[i]? =
        some ⟨p, p.length - k, Phase.writing⟩ := by
      rw [harith]
      exact List.getElem?_set_self hi
    have hrun := ih ⟨some i, c.out ++ [p[p.length - (k + 1)]],
        c.threads.set i ⟨p, p.length - (k + 1) + 1, Phase.writing⟩⟩
      (by omega) rfl hset2
    have hout : (c.out ++ [p[p.length - (k + 1)]]) ++ p.drop (p.length - k) =
        c.out ++ p.drop (p.length - (k + 1)) := by
      rw [List.append_assoc]
      congr 1
      rw [List.drop_eq_getElem_cons hpos, harith]
      rfl
    have hsets : (c.threads.set i ⟨p, p.length - (k + 1) + 1, Phase.writing⟩).set i
        ⟨p, p.length, Phase.writing⟩ = c.threads.set i ⟨p, p.length, Phase.writing⟩ :=
      List.set_set ..
    rw [hout, hsets] at hrun
    exact hrun
/-- An idle caller can run to completion when the lock is free, appending
its whole payload to the stream. -/
theorem thread_run (c : Config) (i : Nat) (t : ThreadSt)
    (hl : c.lock = none) (ht : c.threads[i]? = some t)
    (hp : t.phase = Phase.idle) (h0 : t.pos = 0) :
    Relation.ReflTransGen WStep c
      ⟨none, c.out ++ t.payload,
       c.threads.set i ⟨t.payload, t.payload.length, Phase.finished⟩⟩ := by
  have hi : i < c.threads.length := (List.getElem?_eq_some.mp ht).1
  have hacq := WStep.acquire c i t hl ht hp
  refine Relation.ReflTransGen.head hacq ?_
  have hset1 : (c.threads.set i ⟨t.payload, t.pos, Phase.writing⟩)[i]? =
      some ⟨t.payload, t.payload.length - t.payload.length, Phase.writing⟩ := by
    rw [Nat.sub_self, ← h0]
    exact List.getElem?_set_self hi
  have hrun := emit_run i t.payload t.payload.length
    ⟨some i, c.out, c.threads.set i ⟨t.payload, t.pos, Phase.writing⟩⟩
    (Nat.le_refl _) rfl hset1
  have hdrop : t.payload.drop (t.payload.length - t.payload.length) = t.payload := by
    simp
  rw [hdrop] at hrun
  have hsets : (c.threads.set i ⟨t.payload, t.pos, Phase.writing⟩).set i
      ⟨t.payload, t.payload.length, Phase.writing⟩ =
      c.threads.set i ⟨t.payload, t.payload.length, Phase.writing⟩ :=
    List.set_set ..
  rw [hsets] at hrun
  refine Relation.ReflTransGen.trans hrun ?_
  have hrel := WStep.release
    ⟨some i, c.out ++ t.payload, c.threads.set i ⟨t.payload, t.payload.length, Phase.writing⟩⟩
    i ⟨t.payload, t.payload.length, Phase.writing⟩
    rfl (List.getElem?_set_self hi) rfl rfl
  have hsets2 : (c.threads.set i ⟨t.payload, t.payload.length, Phase.writing⟩).set i
      ⟨t.payload, t.payload.length, Phase.finished⟩ =
      c.threads.set i ⟨t.payload, t.payload.length, Phase.finished⟩ :=
    List.set_set ..
  rw [hsets2] at hrel
  exact Relation.ReflTransGen.single hrel
/-- C1: the keys of the emitted JSON object are exactly `ts`, `level`,
`component`, `msg`, `caller`, `func` in that fixed order, then `trace` and
`span` exactly when the span context is not the zero value, then `fields`
exactly when the field collection is non-empty; absent optional keys do not
occur at all (they are missing from the key list, not bound to null or
empty). -/
theorem C1_fixed_key_order (ent : Entry) :
    (entryMap ent).map Prod.fst =
      ["ts", "level", "component", "msg", "caller", "func"]
        ++ (if ent.SpanContext = SpanContext.empty then [] else ["trace", "span"])
        ++ (if ent.Fields.isEmpty then [] else ["fields"]) := by
  unfold entryMap slog.Map slog.F
  by_cases h1 : ent.SpanContext = SpanContext.empty <;>
    cases h2 : ent.Fields.isEmpty <;>
      simp_all [List.isEmpty_iff, List.length_pos]

/-- C2: `trace` and `span` are bound in the record exactly when the entry's
span context differs from the zero sentinel (the equality test of line 61);
when bound they appear together, holding the string representations of the
trace ID and span ID. -/
theorem C2_trace_span_iff_nonzero (ent : Entry) :
    (lookupKey (entryMap ent) "trace", lookupKey (entryMap ent) "span") =
      (if ent.SpanContext = SpanContext.empty then (none, none)
       else (some (JVal.str (bytesHex ent.SpanContext.TraceID)),
             some (JVal.str (bytesHex ent.SpanContext.SpanID)))) := by
  unfold entryMap slog.Map slog.F
  by_cases h1 : ent.SpanContext = SpanContext.empty <;>
    cases h2 : ent.Fields.isEmpty <;>
      simp_all [List.isEmpty_iff, List.length_pos, lookupKey]

/-- C3: `fields` is bound in the record exactly when the entry carries at
least one field; when bound, its value is the JSON object holding the
entry's fields, same names, same values, in their original insertion
order. -/
theorem C3_fields_iff_nonempty (ent : Entry) :
    lookupKey (entryMap ent) "fields" =
      (if ent.Fields.isEmpty then none else some (JVal.obj ent.Fields)) := by
  unfold entryMap slog.Map slog.F
  by_cases h1 : ent.SpanContext = SpanContext.empty <;>
    cases h2 : ent.Fields.isEmpty <;>
      simp_all [List.isEmpty_iff, List.length_pos, lookupKey]

/-- C8: the value of the `caller` key is the entry's file path and line
number joined by one colon, with no padding. -/
theorem C8_caller_format (ent : Entry) :
    lookupKey (entryMap ent) "caller" =
      some (JVal.str (ent.File ++ ":" ++ toString ent.Line)) := by
  unfold entryMap slog.Map slog.F
  by_cases h1 : ent.SpanContext = SpanContext.empty <;>
    cases h2 : ent.Fields.isEmpty <;>
      simp_all [List.isEmpty_iff, List.length_pos, lookupKey]

/-- C4: when marshalling the entry fails, `LogEntry` returns the cause
wrapped with the component-identifying message `slogjson: failed to encode
entry to JSON`, and no write call is issued — the stream is untouched. -/
theorem C4_encode_error_no_write (s : jsonSink) (ent : Entry) (cause : GoError)
    (h : JVal.marshal (slog.Encode (entryMap ent)) = .error cause) :
    s.LogEntry ent =
      (.error (GoError.wrap "slogjson: failed to encode entry to JSON" cause), []) := by
  unfold jsonSink.LogEntry
  rw [h]

/-- Witness for C4 at the example entry carrying an unmarshalable field
value. -/
theorem C4_encode_error_no_write_witness :
    sinkOK.LogEntry entBad =
      (.error (GoError.wrap "slogjson: failed to encode entry to JSON"
        (GoError.base "json: unsupported type: func()")), []) :=
  C4_encode_error_no_write sinkOK entBad
    (GoError.base "json: unsupported type: func()") rfl

/-- C5: when marshalling succeeds and the single write call fails,
`LogEntry` returns exactly the underlying writer's error wrapped once with
`slogjson: failed to write JSON entry`, and exactly one write call was
issued (no retry). -/
theorem C5_write_error_wrapped (s : jsonSink) (ent : Entry) (buf : String)
    (e : GoError)
    (h1 : JVal.marshal (slog.Encode (entryMap ent)) = .ok buf)
    (h2 : s.w.Write (buf ++ "\n") = some e) :
    s.LogEntry ent =
      (.error (GoError.wrap "slogjson: failed to write JSON entry" e),
       [buf ++ "\n"]) := by
  unfold jsonSink.LogEntry
  rw [h1]
  simp only [h2]

/-- Witness for C5 at the example entry over the closed-pipe writer. -/
theorem C5_write_error_wrapped_witness :
    sinkFail.LogEntry entGood =
      (.error (GoError.wrap "slogjson: failed to write JSON entry"
        (GoError.base "io: write on closed pipe")), [jsonGood ++ "\n"]) :=
  C5_write_error_wrapped sinkFail entGood jsonGood
    (GoError.base "io: write on closed pipe") rfl rfl

/-- C6: `LogEntry` issues at most one write call, and when it issues one the
payload is the complete serialized JSON object followed by exactly one
newline byte. -/
theorem C6_single_complete_write (s : jsonSink) (ent : Entry) :
    (s.LogEntry ent).2.length ≤ 1 ∧
    (s.LogEntry ent).2 =
      (match JVal.marshal (slog.Encode (entryMap ent)) with
       | .error _ => []
       | .ok buf => [buf ++ "\n"]) := by
  refine ⟨?_, ?_⟩ <;>
    · unfold jsonSink.LogEntry
      cases h : JVal.marshal (slog.Encode (entryMap ent)) with
      | error e => simp
      | ok buf => cases hw : s.w.Write (buf ++ "\n") <;> simp [hw]

/-- C9: the sink's display-mode (color) flag does not influence `LogEntry`
at all — two sinks over the same writer that differ only in the flag return
the same result and issue the same write calls for every entry. -/
theorem C9_color_has_no_effect (w : syncwriter.Writer) (c1 c2 : Bool)
    (ent : Entry) :
    jsonSink.LogEntry ⟨w, c1⟩ ent = jsonSink.LogEntry ⟨w, c2⟩ ent := rfl

/-- C10: `jsonSink.Sync` returns exactly the synchronized writer's sync
result, adding no wrapping and no component-identifying context (unlike the
write path). -/
theorem C10_sync_is_passthrough (s : jsonSink) :
    s.Sync = s.w.Sync := rfl
/-- C7: for any number of concurrent callers logging to the same sink, in
any complete interleaved execution of the synchronized writer the output
stream is a concatenation of the callers' whole payloads in some order —
each logical entry is one contiguous, newline-terminated byte run, with the
order across callers unspecified. -/
theorem C7_no_interleaved_writes (s : jsonSink) (ents : List Entry) (c : Config)
    (h1 : Relation.ReflTransGen WStep (initConfig (entryPayloads s ents)) c)
    (h2 : ∀ t ∈ c.threads, t.phase = Phase.finished) :
    (∃ order : List Nat, order.Perm (List.range (entryPayloads s ents).length) ∧
        c.out = (order.map (fun i => (entryPayloads s ents).getD i [])).flatten) ∧
    ∀ p ∈ entryPayloads s ents, p ≠ [] ∧ p.getLast? = some '\n' :=
  ⟨final_out h1 h2, fun _ hp => payload_newline hp⟩

/-- Witness for C7: one caller logging the example entry runs to a final
state whose stream is exactly its line. -/
theorem C7_no_interleaved_writes_witness :
    (∃ order : List Nat,
        order.Perm (List.range (entryPayloads sinkOK [entGood]).length) ∧
        finalConfigGood.out =
          (order.map (fun i => (entryPayloads sinkOK [entGood]).getD i [])).flatten) ∧
    ∀ p ∈ entryPayloads sinkOK [entGood], p ≠ [] ∧ p.getLast? = some '\n' :=
  C7_no_interleaved_writes sinkOK [entGood] finalConfigGood
    (by
      have hps : entryPayloads sinkOK [entGood] = [payloadGood] := by rfl
      rw [hps]
      have hrun := thread_run (initConfig [payloadGood]) 0
        ⟨payloadGood, 0, Phase.idle⟩ rfl rfl rfl rfl
      simpa [initConfig, finalConfigGood] using hrun)
    (by
      intro t htmem
      have : t = ⟨payloadGood, payloadGood.length, Phase.finished⟩ := by
        simpa [finalConfigGood] using htmem
      rw [this])
